import Mathlib

/-!
Verification of the goeditor core subsystems (search, history, indentation)
against a shallow embedding of the Go source.

Go strings are modelled byte-exactly as lists of naturals (`GoStr`), Go `int`
as `Int`, Go slices as Lean lists.  Every operation that can panic in Go
(out-of-range slicing or indexing) is modelled in the `Option` monad, with
`none` standing for a runtime panic; `some` results are normal returns.
-/

/-- A Go string: a sequence of bytes (each `< 256` for real inputs). -/
abbrev GoStr := List Nat

/-- `strings.Split(s, "\n")`: split a byte string on the newline byte 10. -/
def splitNL : GoStr → List GoStr
  | [] => [[]]
  | b :: rest =>
    if b = 10 then [] :: splitNL rest
    else
      match splitNL rest with
      | l :: ls => (b :: l) :: ls
      | [] => [[b]]

/-- `strings.Join(ls, "\n")`. -/
def joinNL : List GoStr → GoStr
  | [] => []
  | [l] => l
  | l :: ls => l ++ 10 :: joinNL ls

/-- `strings.Index(s, pat)`: the smallest byte index at which `pat` occurs in
`s` (`none` models Go's `-1`).  `Index(s, "") = 0`. -/
def goIndex (s pat : GoStr) : Option Nat :=
  (List.range (s.length + 1)).find? (fun i => pat.isPrefixOf (s.drop i))

/-- Go slice indexing `l[i]`; `none` models the out-of-range panic. -/
def goNth {α : Type} (l : List α) (i : Int) : Option α :=
  if i < 0 then none else l[i.toNat]?

/-- Go string slicing `s[:i]`; `none` models the out-of-range panic. -/
def goSliceTo (s : GoStr) (i : Int) : Option GoStr :=
  if 0 ≤ i ∧ i ≤ (s.length : Int) then some (s.take i.toNat) else none

/-- Go string slicing `s[i:]`; `none` models the out-of-range panic. -/
def goSliceFrom (s : GoStr) (i : Int) : Option GoStr :=
  if 0 ≤ i ∧ i ≤ (s.length : Int) then some (s.drop i.toNat) else none

/-! ### UTF-8 and the fragments of `unicode`/`strings` used by the source -/

/-- UTF-8 encoding of one code point, as Go's `utf8.EncodeRune`: surrogates
and out-of-range values encode the replacement character U+FFFD. -/
def utf8EncodeRune (r : Nat) : GoStr :=
  if r < 0x80 then [r]
  else if r < 0x800 then [0xC0 + r / 64, 0x80 + r % 64]
  else if 0xD800 ≤ r ∧ r ≤ 0xDFFF then [0xEF, 0xBF, 0xBD]
  else if r < 0x10000 then [0xE0 + r / 4096, 0x80 + (r / 64) % 64, 0x80 + r % 64]
  else if r ≤ 0x10FFFF then
    [0xF0 + r / 262144, 0x80 + (r / 4096) % 64, 0x80 + (r / 64) % 64, 0x80 + r % 64]
  else [0xEF, 0xBF, 0xBD]

/-- Encode a sequence of code points to bytes. -/
def utf8Encode (rs : List Nat) : GoStr := (rs.map utf8EncodeRune).flatten

/-- Is `b` a UTF-8 continuation byte? -/
def isCont (b : Nat) : Bool := 0x80 ≤ b && b ≤ 0xBF

/-- Decode a byte string to the sequence of runes Go's `for range`
produces: strict RFC-3629 decoding, with every invalid byte yielding the
replacement rune U+FFFD and a one-byte advance (as `utf8.DecodeRuneInString`).
-/
def utf8DecodeOne (b0 : Nat) (rest : GoStr) : Nat × Nat :=
  if b0 < 0x80 then (b0, 0)
  else if 0xC2 ≤ b0 && b0 ≤ 0xDF then
    match rest with
    | b1 :: _ =>
      if isCont b1 then ((b0 - 0xC0) * 64 + (b1 - 0x80), 1) else (0xFFFD, 0)
    | [] => (0xFFFD, 0)
  else if 0xE0 ≤ b0 && b0 ≤ 0xEF then
    match rest with
    | b1 :: b2 :: _ =>
      if (if b0 = 0xE0 then 0xA0 ≤ b1 && b1 ≤ 0xBF
          else if b0 = 0xED then 0x80 ≤ b1 && b1 ≤ 0x9F
          else isCont b1) && isCont b2 then
        ((b0 - 0xE0) * 4096 + (b1 - 0x80) * 64 + (b2 - 0x80), 2)
      else (0xFFFD, 0)
    | _ => (0xFFFD, 0)
  else if 0xF0 ≤ b0 && b0 ≤ 0xF4 then
    match rest with
    | b1 :: b2 :: b3 :: _ =>
      if (if b0 = 0xF0 then 0x90 ≤ b1 && b1 ≤ 0xBF
          else if b0 = 0xF4 then 0x80 ≤ b1 && b1 ≤ 0x8F
          else isCont b1) && isCont b2 && isCont b3 then
        ((b0 - 0xF0) * 262144 + (b1 - 0x80) * 4096 + (b2 - 0x80) * 64 + (b3 - 0x80), 3)
      else (0xFFFD, 0)
    | _ => (0xFFFD, 0)
  else (0xFFFD, 0)

/-- Decoding loop; `fuel` bounds the number of runes produced.  Every step
consumes at least one byte, so `fuel = s.length` (as used by
`utf8DecodeRunes`) is always sufficient and the result is exact. -/
def utf8DecodeAux : Nat → GoStr → List Nat
  | 0, _ => []
  | _, [] => []
  | fuel + 1, b0 :: rest =>
    let (r, extra) := utf8DecodeOne b0 rest
    r :: utf8DecodeAux fuel (rest.drop extra)

def utf8DecodeRunes (s : GoStr) : List Nat := utf8DecodeAux s.length s

/-- `unicode.ToLower` (the simple case mapping), restricted to the code
points exercised in this development: ASCII, Latin-1, and U+023A/U+023E
(whose lowercase forms U+2C65/U+2C66 are longer in UTF-8 than the upper-case
forms); identity elsewhere.  Every concrete input evaluated below stays
inside this fragment, where the mapping agrees with Go's tables. -/
def goToLowerRune (r : Nat) : Nat :=
  if 65 ≤ r ∧ r ≤ 90 then r + 32
  else if (0xC0 ≤ r ∧ r ≤ 0xDE) ∧ r ≠ 0xD7 then r + 32
  else if r = 0x23A then 0x2C65
  else if r = 0x23E then 0x2C66
  else r

/-- `strings.ToLower`: per-rune simple lowercase mapping over the string
(Go's `strings.Map(unicode.ToLower, s)`, which the ASCII fast path agrees
with). -/
def goToLower (s : GoStr) : GoStr := utf8Encode ((utf8DecodeRunes s).map goToLowerRune)

/-- `unicode.IsSpace` (the White_Space property) on a code point. -/
def goIsSpaceRune (r : Nat) : Bool :=
  (9 ≤ r && r ≤ 13) || r = 32 || r = 0x85 || r = 0xA0 || r = 0x1680 ||
  (0x2000 ≤ r && r ≤ 0x200A) || r = 0x2028 || r = 0x2029 || r = 0x202F ||
  r = 0x205F || r = 0x3000

/-- Whether `strings.TrimSpace(s)` is empty, i.e. every rune of `s` is
Unicode whitespace. -/
def trimSpaceIsEmpty (s : GoStr) : Bool := (utf8DecodeRunes s).all goIsSpaceRune

/-- `unicode.IsLetter(b) || unicode.IsDigit(b) || b == '_'` for a single
byte interpreted as a rune (Go's `rune(line[i])`), i.e. the word-character
test of `isWholeWord` on code points 0–255. -/
def isWordByte (b : Nat) : Bool :=
  (48 ≤ b && b ≤ 57) || (65 ≤ b && b ≤ 90) || (97 ≤ b && b ≤ 122) || b = 95 ||
  b = 0xAA || b = 0xB5 || b = 0xBA || (0xC0 ≤ b && b ≤ 0xD6) ||
  (0xD8 ≤ b && b ≤ 0xF6) || (0xF8 ≤ b && b ≤ 0xFF)

/-- Byte string of a Lean string literal (UTF-8), for concrete test inputs. -/
def gs (s : String) : GoStr := utf8Encode (s.data.map Char.toNat)

/-! ### Position and Match model (`src/backend/state.go`, `search.go`) -/

/-- `backend.Position`: a 1-based (line, column) location (Go `int` fields). -/
structure Position where
  line : Int
  column : Int
deriving DecidableEq, Repr

/-- `backend.Match`: a located occurrence.  `stop` models the Go field `End`
(a reserved word in Lean); the span is `[start, stop)` in columns. -/
structure GoMatch where
  start : Position
  stop : Position
  text : GoStr
deriving DecidableEq, Repr

/-- `backend.SearchOptions`. -/
structure SearchOptions where
  caseSensitive : Bool
  wholeWord : Bool
  regularExpression : Bool
  wrapAround : Bool
deriving DecidableEq, Repr

/-- `backend.ReplaceOptions` (embedded `SearchOptions` plus `ReplaceAll`). -/
structure ReplaceOptions where
  search : SearchOptions
  replaceAll : Bool
deriving DecidableEq, Repr

/-- Abstract model of Go's `regexp` library as used by `findRegex` and
`processRegexReplacement`.  `findLine opts pat line` stands for compiling
`flags+pat` (with the case-insensitivity flag and `\b` wrapping applied as in
the source) and running `FindAllStringIndex(line, -1)`; `findLine_wf` records
the library guarantee that returned index pairs lie within the line.
`replaceOne opts matchText pat repl` stands for
`regex.ReplaceAllString(matchText, repl)` (or `repl` itself if the pattern
does not compile).  All search-state theorems below hold for every such
engine. -/
structure RegexEngine where
  findLine : SearchOptions → GoStr → GoStr → List (Nat × Nat)
  findLine_wf : ∀ o p l, ∀ pr ∈ findLine o p l, pr.1 ≤ pr.2 ∧ pr.2 ≤ l.length
  replaceOne : SearchOptions → GoStr → GoStr → GoStr → GoStr

/-- `backend.SearchManager`. -/
structure SearchManager where
  currentPattern : GoStr
  «matches» : List GoMatch
  currentIndex : Int
  options : SearchOptions
  lastSearchText : GoStr
deriving DecidableEq, Repr

namespace SearchManager

/-- `backend.NewSearchManager()`. -/
def NewSearchManager : SearchManager where
  currentPattern := []
  «matches» := []
  currentIndex := -1
  options := { caseSensitive := false, wholeWord := false,
               regularExpression := false, wrapAround := true }
  lastSearchText := []

/-- `SearchManager.SetOptions`. -/
def SetOptions (sm : SearchManager) (o : SearchOptions) : SearchManager :=
  -- Go assigns `sm.options = options` first; the pattern test reads a field
  -- the assignment does not touch, so the update is written in one step.
  if sm.currentPattern ≠ [] then
    { sm with options := o, «matches» := [], currentIndex := -1 }
  else { sm with options := o }

/-- `SearchManager.isWholeWord(line, start, length)`.  The direct byte reads
`line[start-1]` / `line[end]` are in bounds at every call site (`start` is a
match position inside `line`); the unreachable out-of-range reads are modelled
as accepting. -/
def isWholeWord (line : GoStr) (start length : Nat) : Bool :=
  let stop := start + length
  (if start > 0 then
    match (line)[start - 1]? with
    | some prevChar => !isWordByte prevChar
    | none => true
   else true) &&
  (if stop < line.length then
    match (line)[stop]? with
    | some nextChar => !isWordByte nextChar
    | none => true
   else true)

/-- Result of the literal scanning loop: a normal return, a panic, or fuel
exhaustion (`fuelOut` is proved unreachable for the fuel `findLiteral`
supplies, see `findLitLoop_no_fuelOut`). -/
inductive ScanRes where
  | ok (ms : List GoMatch)
  | panic
  | fuelOut
deriving DecidableEq, Repr

/-- The inner `for` loop of `findLiteral` over one line.  `orig` is the
original-case line, `sline` the case-folded line being scanned, `pat` the
case-folded pattern, `ln` the 0-based line number and `startCol` the search
cursor.  A step where Go would panic (slicing `line[startCol:]` past the end,
or slicing `originalLine[actualIndex : actualIndex+len(searchPattern)]` out of
range) yields `.panic`. -/
def findLitLoop (orig sline pat : GoStr) (ww : Bool) (ln : Nat) :
    Nat → Nat → ScanRes
  | 0, _ => .fuelOut
  | fuel + 1, startCol =>
    if startCol > sline.length then .panic
    else
      match goIndex (sline.drop startCol) pat with
      | none => .ok []
      | some idx =>
        -- the source's `actualIndex := startCol + index`
        if ww && !isWholeWord sline (startCol + idx) pat.length then
          findLitLoop orig sline pat ww ln fuel (startCol + idx + 1)
        else
          if startCol + idx + pat.length ≤ orig.length then
            match findLitLoop orig sline pat ww ln fuel (startCol + idx + 1) with
            | .ok ms =>
              .ok ({ start := ⟨(ln : Int) + 1, (startCol + idx : Int) + 1⟩,
                     stop := ⟨(ln : Int) + 1,
                             (startCol + idx : Int) + (pat.length : Int) + 1⟩,
                     text := (orig.drop (startCol + idx)).take pat.length } :: ms)
            | r => r
          else .panic

/-- The per-line iteration of `findLiteral`: ranges over the case-folded
lines, reading `lines[lineNum]` from the original-case split (a panic if out
of range, which cannot happen for genuine `ToLower` output). -/
def flLines (ww : Bool) (pat : GoStr) (lines : List GoStr) :
    List GoStr → Nat → Option (List GoMatch)
  | [], _ => some []
  | sline :: rest, lineNum =>
    match lines[lineNum]? with
    | none => none
    | some orig =>
      match findLitLoop orig sline pat ww lineNum (sline.length + 2) 0 with
      | .ok ms => (flLines ww pat lines rest (lineNum + 1)).map (ms ++ ·)
      | _ => none

/-- `SearchManager.findLiteral` (returning the produced match list;
`none` models a runtime panic). -/
def findLiteral (o : SearchOptions) (text pat : GoStr) : Option (List GoMatch) :=
  let searchText := if o.caseSensitive then text else goToLower text
  let searchPat := if o.caseSensitive then pat else goToLower pat
  flLines o.wholeWord searchPat (splitNL text) (splitNL searchText) 0

/-- `SearchManager.findRegex` (returning the produced match list).  Never
panics: the regexp library returns in-bounds index pairs. -/
def findRegex (re : RegexEngine) (o : SearchOptions) (text pat : GoStr) :
    List GoMatch :=
  ((splitNL text).enum.map (fun p =>
    (re.findLine o pat p.2).map (fun pr =>
      { start := ⟨(p.1 : Int) + 1, (pr.1 : Int) + 1⟩,
        stop := ⟨(p.1 : Int) + 1, (pr.2 : Int) + 1⟩,
        text := (p.2.drop pr.1).take (pr.2 - pr.1) : GoMatch }))).flatten

/-- `SearchManager.Find`: returns the match list and the updated manager;
`none` models a panic inside `findLiteral`. -/
def Find (re : RegexEngine) (sm : SearchManager) (text pat : GoStr) :
    Option (List GoMatch × SearchManager) :=
  if pat = [] then
    some ([], { sm with «matches» := [], currentIndex := -1 })
  else
    let sm := { sm with currentPattern := pat, lastSearchText := text,
                        «matches» := [], currentIndex := -1 }
    if sm.options.regularExpression then
      let ms := findRegex re sm.options text pat
      some (ms, { sm with «matches» := ms })
    else
      (findLiteral sm.options text pat).map (fun ms => (ms, { sm with «matches» := ms }))

/-- `SearchManager.GetMatchCount`. -/
def GetMatchCount (sm : SearchManager) : Int := sm.«matches».length

/-- `SearchManager.NextMatch`: returns the yielded match (or `nil`) and the
updated manager; outer `none` models the panic `&sm.matches[i]` with an
out-of-range index. -/
def NextMatch (sm : SearchManager) : Option (Option GoMatch × SearchManager) :=
  -- `sm.currentIndex + 1` is the source's incremented `sm.currentIndex`.
  if sm.«matches».length = 0 then some (none, sm)
  else if sm.currentIndex + 1 ≥ (sm.«matches».length : Int) then
    if sm.options.wrapAround then
      (goNth sm.«matches» 0).map (fun m => (some m, { sm with currentIndex := 0 }))
    else
      some (none, { sm with currentIndex := (sm.«matches».length : Int) - 1 })
  else
    (goNth sm.«matches» (sm.currentIndex + 1)).map
      (fun m => (some m, { sm with currentIndex := sm.currentIndex + 1 }))

/-- `SearchManager.PreviousMatch`. -/
def PreviousMatch (sm : SearchManager) : Option (Option GoMatch × SearchManager) :=
  -- `sm.currentIndex - 1` is the source's decremented `sm.currentIndex`.
  if sm.«matches».length = 0 then some (none, sm)
  else if sm.currentIndex - 1 < 0 then
    if sm.options.wrapAround then
      (goNth sm.«matches» ((sm.«matches».length : Int) - 1)).map
        (fun m => (some m, { sm with currentIndex := (sm.«matches».length : Int) - 1 }))
    else
      some (none, { sm with currentIndex := 0 })
  else
    (goNth sm.«matches» (sm.currentIndex - 1)).map
      (fun m => (some m, { sm with currentIndex := sm.currentIndex - 1 }))

/-- `SearchManager.SetCurrentMatch` (total: the index is validated first). -/
def SetCurrentMatch (sm : SearchManager) (index : Int) :
    Option GoMatch × SearchManager :=
  if index < 0 ∨ index ≥ (sm.«matches».length : Int) then (none, sm)
  else
    match goNth sm.«matches» index with
    | some m => (some m, { sm with currentIndex := index })
    | none => (none, { sm with currentIndex := index })

/-- `SearchManager.GetCurrentMatch` (total: the index is validated first). -/
def GetCurrentMatch (sm : SearchManager) : Option GoMatch :=
  if sm.currentIndex < 0 ∨ sm.currentIndex ≥ (sm.«matches».length : Int) then none
  else goNth sm.«matches» sm.currentIndex

/-- `SearchManager.Clear`. -/
def Clear (sm : SearchManager) : SearchManager :=
  { sm with currentPattern := [], «matches» := [], currentIndex := -1,
            lastSearchText := [] }

/-- Sum of `len(lines[j]) + 1` over `j < k` (the absolute-offset loop of the
replace functions). -/
def lineOffsetSum (lines : List GoStr) (k : Nat) : Nat :=
  ((lines.take k).map (fun l => l.length + 1)).sum

/-- One iteration of the descending replacement loop of
`SearchManager.replaceAll`: returns the updated text and whether a
replacement was counted; `none` models a panic while slicing `result`. -/
def replAllStep (re : RegexEngine) (o : SearchOptions) (pat repl : GoStr)
    (m : GoMatch) (result : GoStr) : Option (GoStr × Bool) :=
  -- The source's `absoluteStart` is written out below as
  -- `lineOffsetSum (splitNL result) (m.start.line - 1).toNat + m.start.column - 1`
  -- and `absoluteEnd` as `absoluteStart + (m.stop.column - m.start.column)`.
  if m.start.line - 1 ≥ ((splitNL result).length : Int) then some (result, false)
  else
    match goNth (splitNL result) (m.start.line - 1) with
    | none => none
    | some line =>
      if m.start.column - 1 ≥ (line.length : Int) ∨
         m.stop.column - 1 > (line.length : Int) then some (result, false)
      else
        if (lineOffsetSum (splitNL result) (m.start.line - 1).toNat : Int) +
              m.start.column - 1 + (m.stop.column - m.start.column) ≤
            (result.length : Int) then
          match goSliceTo result
                  ((lineOffsetSum (splitNL result) (m.start.line - 1).toNat : Int) +
                    m.start.column - 1),
                goSliceFrom result
                  ((lineOffsetSum (splitNL result) (m.start.line - 1).toNat : Int) +
                    m.start.column - 1 + (m.stop.column - m.start.column)) with
          | some pre, some post =>
            some (pre ++
              (if o.regularExpression then re.replaceOne o m.text pat repl
               else repl) ++ post, true)
          | _, _ => none
        else some (result, false)

/-- The descending loop of `replaceAll` (`for i := len(matches)-1; i >= 0;
i--`), given the match list already reversed. -/
def replAllLoop (re : RegexEngine) (o : SearchOptions) (pat repl : GoStr) :
    List GoMatch → GoStr → Int → Option (GoStr × Int)
  | [], result, count => some (result, count)
  | m :: rest, result, count =>
    match replAllStep re o pat repl m result with
    | none => none
    | some (result', replaced) =>
      replAllLoop re o pat repl rest result' (if replaced then count + 1 else count)

/-- `SearchManager.replaceAll`. -/
def replaceAll (re : RegexEngine) (sm : SearchManager) (text pat repl : GoStr) :
    Option ((GoStr × Int) × SearchManager) :=
  match Find re sm text pat with
  | none => none
  | some («matches», sm) =>
    if «matches».length = 0 then some ((text, 0), sm)
    else
      match replAllLoop re sm.options pat repl «matches».reverse text 0 with
      | none => none
      | some res => some (res, sm)

/-- The body of `SearchManager.replaceCurrent` once a current match is in
hand (from the saved state or the fresh `Find`). -/
def replaceCurrentCore (re : RegexEngine) (sm : SearchManager)
    (text pat repl : GoStr) (currentMatch : GoMatch) :
    Option ((GoStr × Int) × SearchManager) :=
  -- `absoluteStart`/`absoluteEnd` are written out as in `replAllStep`, and
  -- `result` as the concatenation `pre ++ actualReplacement ++ post`.
  if currentMatch.start.line - 1 ≥ ((splitNL text).length : Int) then
    some ((text, 0), sm)
  else if (lineOffsetSum (splitNL text)
          (currentMatch.start.line - 1).toNat : Int) +
        currentMatch.start.column - 1 +
        (currentMatch.stop.column - currentMatch.start.column) >
      (text.length : Int) then some ((text, 0), sm)
  else
    match goSliceTo text
            ((lineOffsetSum (splitNL text)
                (currentMatch.start.line - 1).toNat : Int) +
              currentMatch.start.column - 1),
          goSliceFrom text
            ((lineOffsetSum (splitNL text)
                (currentMatch.start.line - 1).toNat : Int) +
              currentMatch.start.column - 1 +
              (currentMatch.stop.column - currentMatch.start.column)) with
    | some pre, some post =>
      match Find re sm
          (pre ++
            (if sm.options.regularExpression then
              re.replaceOne sm.options currentMatch.text pat repl
             else repl) ++ post) pat with
      | none => none
      | some (_, sm') =>
        some ((pre ++
          (if sm.options.regularExpression then
            re.replaceOne sm.options currentMatch.text pat repl
           else repl) ++ post, 1), sm')
    | _, _ => none

/-- `SearchManager.replaceCurrent`. -/
def replaceCurrent (re : RegexEngine) (sm : SearchManager)
    (text pat repl : GoStr) : Option ((GoStr × Int) × SearchManager) :=
  match GetCurrentMatch sm with
  | some currentMatch => replaceCurrentCore re sm text pat repl currentMatch
  | none =>
    match Find re sm text pat with
    | none => none
    | some («matches», sm) =>
      if «matches».length = 0 then some ((text, 0), sm)
      else
        match «matches».head? with
        | some currentMatch =>
          replaceCurrentCore re { sm with currentIndex := 0 } text pat repl
            currentMatch
        | none => none

/-- `SearchManager.Replace`. -/
def Replace (re : RegexEngine) (sm : SearchManager) (text pat repl : GoStr)
    (options : ReplaceOptions) : Option ((GoStr × Int) × SearchManager) :=
  if options.replaceAll then
    replaceAll re (SetOptions sm options.search) text pat repl
  else replaceCurrent re (SetOptions sm options.search) text pat repl

end SearchManager

/-! ### History log (`src/backend/history.go`) -/

/-- `backend.OperationType`. -/
inductive OperationType where
  | insert
  | delete
  | replace
deriving DecidableEq, Repr

/-- `backend.Operation`.  `timestamp` models `time.Time` as a natural number,
with `0` standing for the zero time (`Timestamp.IsZero()`); `time.Now()` is
never the zero time. -/
structure Operation where
  type : OperationType
  position : Position
  oldText : GoStr
  newText : GoStr
  timestamp : Nat
deriving DecidableEq, Repr

/-- `backend.History`. -/
structure History where
  undoStack : List Operation
  redoStack : List Operation
  maxSize : Int
  enabled : Bool
deriving DecidableEq, Repr

namespace History

/-- `backend.NewHistoryWithSize(maxSize)`. -/
def NewHistoryWithSize (maxSize : Int) : History where
  undoStack := []
  redoStack := []
  maxSize := if maxSize ≤ 0 then 100 else maxSize
  enabled := true

/-- `backend.NewHistory()` (default `maxSize = 100`). -/
def NewHistory : History := NewHistoryWithSize 100

/-- `History.RecordOperation(op)`.  `now` is the value `time.Now()` would
produce (any non-zero instant), used only when `op.timestamp` is unset. -/
def RecordOperation (h : History) (now : Nat) (op : Operation) : History :=
  if !h.enabled then h
  else
    let op := if op.timestamp = 0 then { op with timestamp := now } else op
    let undo := h.undoStack ++ [op]
    let undo := if (undo.length : Int) > h.maxSize then undo.drop 1 else undo
    { h with undoStack := undo, redoStack := [] }

/-- `History.RecordInsert(position, text)`. -/
def RecordInsert (h : History) (now : Nat) (position : Position) (text : GoStr) :
    History :=
  RecordOperation h now
    { type := .insert, position := position, oldText := [], newText := text,
      timestamp := now }

/-- `History.CanUndo()`. -/
def CanUndo (h : History) : Bool := h.undoStack.length > 0

/-- `History.CanRedo()`. -/
def CanRedo (h : History) : Bool := h.redoStack.length > 0

/-- `History.Undo()`: the returned operation (or `nil`) and the new state. -/
def Undo (h : History) : Option Operation × History :=
  match h.undoStack.getLast? with
  | none => (none, h)
  | some op =>
    (some op, { h with undoStack := h.undoStack.dropLast,
                       redoStack := h.redoStack ++ [op] })

/-- `History.Redo()`. -/
def Redo (h : History) : Option Operation × History :=
  match h.redoStack.getLast? with
  | none => (none, h)
  | some op =>
    (some op, { h with redoStack := h.redoStack.dropLast,
                       undoStack := h.undoStack ++ [op] })

/-- `History.Clear()`. -/
def Clear (h : History) : History := { h with undoStack := [], redoStack := [] }

/-- `History.SetEnabled(enabled)`. -/
def SetEnabled (h : History) (enabled : Bool) : History := { h with enabled := enabled }

/-- `History.SetMaxSize(maxSize)`: rejects non-positive sizes, otherwise
updates the bound and evicts the oldest excess undo entries. -/
def SetMaxSize (h : History) (maxSize : Int) : History :=
  if maxSize ≤ 0 then h
  else
    let h := { h with maxSize := maxSize }
    if (h.undoStack.length : Int) > maxSize then
      { h with undoStack := h.undoStack.drop (((h.undoStack.length : Int) - maxSize).toNat) }
    else h

/-- `History.GetUndoCount()`. -/
def GetUndoCount (h : History) : Int := h.undoStack.length

/-- `History.GetRedoCount()`. -/
def GetRedoCount (h : History) : Int := h.redoStack.length

/-- States reachable from a fresh history by `RecordOperation`, `Undo`,
`Redo`, `Clear` and `SetEnabled` (every mutating call except `SetMaxSize`). -/
inductive ReachableNoResize : History → Prop where
  | init (maxSize : Int) : ReachableNoResize (NewHistoryWithSize maxSize)
  | record {h : History} (now : Nat) (op : Operation) :
      ReachableNoResize h → ReachableNoResize (RecordOperation h now op)
  | undo {h : History} : ReachableNoResize h → ReachableNoResize (Undo h).2
  | redo {h : History} : ReachableNoResize h → ReachableNoResize (Redo h).2
  | clear {h : History} : ReachableNoResize h → ReachableNoResize (Clear h)
  | setEnabled {h : History} (b : Bool) :
      ReachableNoResize h → ReachableNoResize (SetEnabled h b)

end History

/-! ### Indentation engine (`src/ui/indentation.go`) -/

/-- `ui.IndentationManager`. -/
structure IndentationManager where
  tabSize : Int
  useSpaces : Bool
  autoIndent : Bool
deriving DecidableEq, Repr

namespace IndentationManager

/-- `ui.NewIndentationManager()`. -/
def NewIndentationManager : IndentationManager where
  tabSize := 4
  useSpaces := true
  autoIndent := true

/-- `IndentationManager.GetIndentString()`: `tabSize` spaces, or one tab.
(`strings.Repeat` would panic on a negative count, but `tabSize` is always in
`[1, 16]` — `NewIndentationManager` sets 4 and `SetTabSize` guards the range —
so the `toNat` clamp is never exercised on reachable managers.) -/
def GetIndentString (im : IndentationManager) : GoStr :=
  if im.useSpaces then List.replicate im.tabSize.toNat 32 else [9]

/-- `IndentationManager.GetLineIndentation(line)`: the maximal leading run of
space/tab runes (re-encoded, as Go accumulates `string(char)`). -/
def GetLineIndentation (line : GoStr) : GoStr :=
  utf8Encode ((utf8DecodeRunes line).takeWhile (fun r => r = 32 || r = 9))

/-- `IndentationManager.IsWhitespaceOnly(line)`:
`strings.TrimSpace(line) == ""`. -/
def IsWhitespaceOnly (line : GoStr) : Bool := trimSpaceIsEmpty line

/-- The rune loop of `removeIndentation`, iterating over `runes` (the full
decoding of the line) with the current suffix and the count of spaces removed
so far.  Returns `(newLine, removedChars)`. -/
def riLoop (im : IndentationManager) (line : GoStr) (runes : List Nat) :
    List Nat → Nat → GoStr × Nat
  | [], removed =>
    if removed > 0 then (utf8Encode (runes.drop removed), removed) else (line, 0)
  | r :: rem, removed =>
    if r = 32 then
      let removed := removed + 1
      if (removed : Int) ≥ im.tabSize then (utf8Encode rem, removed)
      else riLoop im line runes rem removed
    else if r = 9 then (utf8Encode rem, 1)
    else if removed > 0 then (utf8Encode (runes.drop removed), removed)
    else (line, 0)

/-- `IndentationManager.removeIndentation(line)`. -/
def removeIndentation (im : IndentationManager) (line : GoStr) : GoStr × Nat :=
  if line = [] then (line, 0)
  else
    let indentStr := GetIndentString im
    if indentStr.isPrefixOf line then (line.drop indentStr.length, indentStr.length)
    else
      let runes := utf8DecodeRunes line
      riLoop im line runes runes 0

/-- The `for i := startLine; i <= endLine; i++` loop of `IndentLines`,
expressed as a map over the line list carrying the 0-based index `i` (the
source's extra `i < len(lines)` guard is implied: only existing lines are
visited). -/
def indentAux (indentStr : GoStr) (s e : Int) : Int → List GoStr → List GoStr
  | _, [] => []
  | i, l :: ls =>
    (if s ≤ i ∧ i ≤ e ∧ trimSpaceIsEmpty l = false then indentStr ++ l else l) ::
      indentAux indentStr s e (i + 1) ls

/-- `IndentationManager.IndentLines(content, startLine, endLine)`. -/
def IndentLines (im : IndentationManager) (content : GoStr)
    (startLine endLine : Int) : GoStr :=
  let lines := splitNL content
  let s := if startLine < 0 then 0 else startLine
  let e := if endLine ≥ (lines.length : Int) then (lines.length : Int) - 1 else endLine
  if s > e then content
  else joinNL (indentAux (GetIndentString im) s e 0 lines)

/-- The corresponding loop of `UnindentLines`. -/
def unindentAux (im : IndentationManager) (s e : Int) : Int → List GoStr → List GoStr
  | _, [] => []
  | i, l :: ls =>
    (if s ≤ i ∧ i ≤ e then (removeIndentation im l).1 else l) ::
      unindentAux im s e (i + 1) ls

/-- `IndentationManager.UnindentLines(content, startLine, endLine)`. -/
def UnindentLines (im : IndentationManager) (content : GoStr)
    (startLine endLine : Int) : GoStr :=
  let lines := splitNL content
  let s := if startLine < 0 then 0 else startLine
  let e := if endLine ≥ (lines.length : Int) then (lines.length : Int) - 1 else endLine
  if s > e then content
  else joinNL (unindentAux im s e 0 lines)

end IndentationManager

/-! ### Auxiliary definitions for the claims -/

/-- A degenerate but well-formed regex engine (used to instantiate the
abstract `RegexEngine` in concrete evaluations; the inputs evaluated with it
never enable `regularExpression`). -/
def trivialRegex : RegexEngine where
  findLine := fun _ _ _ => []
  findLine_wf := by intro o p l pr h; simp at h
  replaceOne := fun _ _ r _ => r

namespace SearchManager

/-- The index invariant of the search manager: `currentIndex` is `-1` or a
valid index into the match list. -/
def SMInv (sm : SearchManager) : Prop :=
  sm.currentIndex = -1 ∨
    (0 ≤ sm.currentIndex ∧ sm.currentIndex < (sm.«matches».length : Int))

/-- Search-manager states reachable from `NewSearchManager` by any sequence
of `Find`, `SetOptions`, `Clear`, `NextMatch`, `PreviousMatch`,
`SetCurrentMatch` and `Replace` calls that return normally. -/
inductive ReachableSM (re : RegexEngine) : SearchManager → Prop where
  | init : ReachableSM re NewSearchManager
  | find {sm out} (text pat : GoStr) :
      ReachableSM re sm → Find re sm text pat = some out → ReachableSM re out.2
  | setOptions {sm} (o : SearchOptions) :
      ReachableSM re sm → ReachableSM re (SetOptions sm o)
  | clear {sm} : ReachableSM re sm → ReachableSM re (Clear sm)
  | next {sm out} : ReachableSM re sm → NextMatch sm = some out → ReachableSM re out.2
  | prev {sm out} :
      ReachableSM re sm → PreviousMatch sm = some out → ReachableSM re out.2
  | setCurrent {sm} (index : Int) :
      ReachableSM re sm → ReachableSM re (SetCurrentMatch sm index).2
  | replace {sm out} (text pat repl : GoStr) (options : ReplaceOptions) :
      ReachableSM re sm → Replace re sm text pat repl options = some out →
      ReachableSM re out.2

end SearchManager

namespace History

/-- The combined stack bound preserved by every call except `SetMaxSize`. -/
def histInv (h : History) : Prop :=
  ((h.undoStack.length : Int) + (h.redoStack.length : Int)) ≤ h.maxSize

/-- A concrete insert operation (1-byte text, explicit timestamp). -/
def insOp (c ts : Nat) : Operation :=
  { type := .insert, position := ⟨1, 1⟩, oldText := [], newText := [c],
    timestamp := ts }

/-- `maxSize = 3`, then five single-character inserts `a`..`e`. -/
def fiveInserts : History :=
  RecordInsert
    (RecordInsert
      (RecordInsert
        (RecordInsert
          (RecordInsert (NewHistoryWithSize 3) 1 ⟨1, 1⟩ (gs "a"))
          2 ⟨1, 1⟩ (gs "b"))
        3 ⟨1, 1⟩ (gs "c"))
      4 ⟨1, 1⟩ (gs "d"))
    5 ⟨1, 1⟩ (gs "e")

/-- Record two operations, undo one, shrink the bound to 1, redo: the state
reached right after the `Redo()` call returns. -/
def shrinkThenRedo : History :=
  (Redo (SetMaxSize (Undo (RecordOperation (RecordOperation NewHistory 1 (insOp 97 1)) 2 (insOp 98 2))).2 1)).2

/-- Record, undo (leaving a redo entry), disable recording, then record:
the state reached right after that `RecordOperation` call returns. -/
def disabledRecord : History :=
  RecordOperation
    (SetEnabled (Undo (RecordOperation NewHistory 1 (insOp 97 1))).2 false)
    2 (insOp 98 2)

end History

namespace IndentationManager

/-- Bool test that every whitespace-only line of `ls` whose 0-based index `i`
(counting from the accumulator) lies in `[s, e]` is empty. -/
def blanksOK (s e : Int) : Int → List GoStr → Bool
  | _, [] => true
  | i, l :: ls =>
    (if s ≤ i ∧ i ≤ e ∧ trimSpaceIsEmpty l = true then decide (l = []) else true) &&
      blanksOK s e (i + 1) ls

end IndentationManager

namespace SearchManager

/-- A concrete three-match state (as after `Find` on `"t t t"` with pattern
`"t"`) positioned on the last match, used to witness the navigation laws. -/
def smThree (wrap : Bool) (ci : Int) : SearchManager where
  currentPattern := [116]
  «matches» :=
    [ { start := ⟨1, 1⟩, stop := ⟨1, 2⟩, text := [116] },
      { start := ⟨1, 3⟩, stop := ⟨1, 4⟩, text := [116] },
      { start := ⟨1, 5⟩, stop := ⟨1, 6⟩, text := [116] } ]
  currentIndex := ci
  options := { caseSensitive := false, wholeWord := false,
               regularExpression := false, wrapAround := wrap }
  lastSearchText := [116, 32, 116, 32, 116]

end SearchManager

open SearchManager History IndentationManager

theorem splitNL_ne_nil (s : GoStr) : splitNL s ≠ [] := by
  induction s with
  | nil => simp [splitNL]
  | cons b rest ih =>
    simp only [splitNL]
    split
    · simp
    · cases h : splitNL rest with
      | nil => simp
      | cons l ls => simp

theorem joinNL_splitNL (s : GoStr) : joinNL (splitNL s) = s := by
  induction s with
  | nil => simp [splitNL, joinNL]
  | cons b rest ih =>
    simp only [splitNL]
    split
    · next hb =>
      subst hb
      cases h : splitNL rest with
      | nil => exact absurd h (splitNL_ne_nil rest)
      | cons l ls =>
        rw [h] at ih
        simp [joinNL, ← ih]
    · cases h : splitNL rest with
      | nil => exact absurd h (splitNL_ne_nil rest)
      | cons l ls =>
        rw [h] at ih
        cases ls with
        | nil => simp [joinNL, ← ih]
        | cons l' ls' => simp [joinNL, ← ih]

theorem mem_splitNL_no_nl (s : GoStr) : ∀ l ∈ splitNL s, ∀ b ∈ l, b ≠ 10 := by
  induction s with
  | nil => simp [splitNL]
  | cons b rest ih =>
    simp only [splitNL]
    split
    · next hb =>
      intro l hl
      rcases List.mem_cons.mp hl with hl | hl
      · simp [hl]
      · exact ih l hl
    · next hb =>
      cases h : splitNL rest with
      | nil => exact absurd h (splitNL_ne_nil rest)
      | cons l0 ls0 =>
        rw [h] at ih
        intro l hl
        rcases List.mem_cons.mp hl with hl | hl
        · subst hl
          intro c hc
          rcases List.mem_cons.mp hc with hc | hc
          · simp only [hc]; exact hb
          · exact ih l0 (by simp) c hc
        · exact ih l (by simp [hl])

theorem splitNL_singleton_of_no_nl (l : GoStr) (h : ∀ b ∈ l, b ≠ 10) :
    splitNL l = [l] := by
  induction l with
  | nil => simp [splitNL]
  | cons b rest ih =>
    have hb : b ≠ 10 := h b (by simp)
    simp only [splitNL, if_neg hb]
    rw [ih (fun c hc => h c (by simp [hc]))]

theorem splitNL_joinNL (ls : List GoStr) (hne : ls ≠ [])
    (h : ∀ l ∈ ls, ∀ b ∈ l, b ≠ 10) : splitNL (joinNL ls) = ls := by
  induction ls with
  | nil => exact absurd rfl hne
  | cons l ls ih =>
    cases ls with
    | nil =>
      simp only [joinNL]
      exact splitNL_singleton_of_no_nl l (h l (by simp))
    | cons l' ls' =>
      simp only [joinNL]
      have step : ∀ (t : GoStr), (∀ b ∈ t, b ≠ 10) →
          splitNL (t ++ 10 :: joinNL (l' :: ls')) =
            t :: splitNL (joinNL (l' :: ls')) := by
        intro t ht
        induction t with
        | nil => simp [splitNL]
        | cons c t ih2 =>
          have hc : c ≠ 10 := ht c (by simp)
          have hrec := ih2 (fun d hd => ht d (by simp [hd]))
          simp only [List.cons_append] at hrec ⊢
          simp only [splitNL, if_neg hc, List.append_eq, hrec]
      rw [step l (h l (by simp)),
        ih (by simp) (fun m hm => h m (by simp [hm]))]

/-- **C4.** `Replace` with `replaceAll=true` recomputes matches via `Find` and
replaces them in descending order; on `"Hello World\nHello Universe"` with
pattern `"Hello"`, replacement `"Hi"`, it returns
`("Hi World\nHi Universe", 2)`. -/
theorem c4_replace_all :
    (Replace trivialRegex NewSearchManager
        (gs "Hello World\nHello Universe") (gs "Hello") (gs "Hi")
        { search := { caseSensitive := false, wholeWord := false,
                      regularExpression := false, wrapAround := true },
          replaceAll := true }).map (fun r => r.1) =
      some (gs "Hi World\nHi Universe", 2) := by decide

/-- **C3.** Contrary to the claim that no `SearchManager` method ever raises a
hard failure, a literal case-insensitive `Find` panics when lower-casing
changes the byte length of the text: on text `"ȺX"` (U+023A lower-cases to
U+2C65, two bytes to three) and pattern `"x"`, the scan locates the pattern at
byte index 3 of the folded line and Go slices
`originalLine[3:4]` on the 3-byte original line — a slice-bounds panic,
modelled by `none`/`.panic`. -/
theorem c3_tolower_panic :
    Find trivialRegex NewSearchManager (gs "ȺX") (gs "x") = none ∧
    findLitLoop (gs "ȺX") (goToLower (gs "ȺX")) (gs "x") false 0
        ((goToLower (gs "ȺX")).length + 2) 0 = .panic := by decide

/-- **C2 counterexample.** In literal mode the search cursor advances by 1
after an *accepted* match as well, so the returned spans on one line are not
pairwise disjoint: searching `"aaa"` for `"aa"` yields spans `[1,3)` and
`[2,4)` on line 1, which overlap. -/
theorem c2_counterexample :
    (Find trivialRegex NewSearchManager (gs "aaa") (gs "aa")).map
        (fun r => r.1.map (fun m => (m.start.line, m.start.column, m.stop.column))) =
      some [(1, 1, 3), (1, 2, 4)] ∧
    ¬ ((3 : Int) ≤ 2 ∨ (4 : Int) ≤ 1) := by decide

/-- **C1 counterexample.** The bound `len(undoStack) ≤ maxSize` is violated
after a `Redo()` returns in the reachable state built by: record two
operations, `Undo()`, `SetMaxSize(1)` (which trims only the undo stack),
`Redo()` — the undo stack then holds 2 operations with `maxSize = 1`. -/
theorem c1_counterexample :
    ¬ ((shrinkThenRedo.undoStack.length : Int) ≤ shrinkThenRedo.maxSize) := by decide

/-- **C6 counterexample.** `RecordOperation` is a no-op when `enabled=false`,
so in the reachable state record→undo→SetEnabled(false), a `RecordOperation`
call returns with the redo stack still non-empty. -/
theorem c6_counterexample : ¬ (disabledRecord.redoStack = []) := by decide

/-- **C6 (amended).** Immediately after any `RecordOperation` call made while
recording is enabled, the redo stack is empty (a disabled manager leaves it
untouched). -/
theorem c6_amended (h : History) (now : Nat) (op : Operation)
    (henabled : h.enabled = true) :
    (RecordOperation h now op).redoStack = [] := by
  simp [RecordOperation, henabled]

theorem c6_amended_witness :
    (RecordOperation (Undo (RecordOperation NewHistory 1 (insOp 97 1))).2
        2 (insOp 98 2)).redoStack = [] :=
  c6_amended (Undo (RecordOperation NewHistory 1 (insOp 97 1))).2 2 (insOp 98 2)
    (by decide)

/-- **C5.** From any history with a non-empty undo stack, `Undo()` followed
immediately by `Redo()` returns the same operation and restores both stacks
to their pre-undo lengths. -/
theorem c5_undo_redo (h : History) (hne : h.undoStack ≠ []) :
    (Redo (Undo h).2).1 = (Undo h).1 ∧
    ((Redo (Undo h).2).2).undoStack.length = h.undoStack.length ∧
    ((Redo (Undo h).2).2).redoStack.length = h.redoStack.length := by
  have hlast : h.undoStack.getLast? = some (h.undoStack.getLast hne) :=
    List.getLast?_eq_getLast h.undoStack hne
  have hlen : 0 < h.undoStack.length := List.length_pos.mpr hne
  simp [Undo, hlast, Redo, List.getLast?_concat, List.dropLast_concat]
  omega

theorem c5_undo_redo_witness :
    (Redo (Undo (RecordOperation NewHistory 1 (insOp 97 1))).2).1 =
        (Undo (RecordOperation NewHistory 1 (insOp 97 1))).1 ∧
    ((Redo (Undo (RecordOperation NewHistory 1 (insOp 97 1))).2).2).undoStack.length =
        (RecordOperation NewHistory 1 (insOp 97 1)).undoStack.length ∧
    ((Redo (Undo (RecordOperation NewHistory 1 (insOp 97 1))).2).2).redoStack.length =
        (RecordOperation NewHistory 1 (insOp 97 1)).redoStack.length :=
  c5_undo_redo (RecordOperation NewHistory 1 (insOp 97 1)) (by decide)

/-- **C8 counterexample.** A whitespace-only line consisting of exactly one
indent unit (four spaces with the default manager) satisfies the claim's
precondition — its indentation is a whole number of `GetIndentString()` units
— yet `IndentLines` skips it while `UnindentLines` strips it, so the round
trip returns `""` instead of the original content. -/
theorem c8_counterexample :
    GetLineIndentation (gs "    ") = GetIndentString NewIndentationManager ∧
    UnindentLines NewIndentationManager
        (IndentLines NewIndentationManager (gs "    ") 0 0) 0 0 = [] ∧
    gs "    " ≠ [] := by decide

theorem goNth_zero {α : Type} (l : List α) : goNth l 0 = l.head? := by
  simp only [goNth, if_neg (by omega : ¬ (0 : Int) < 0), Int.toNat_zero]
  cases l <;> simp

theorem goNth_last {α : Type} (l : List α) (hl : l ≠ []) :
    goNth l ((l.length : Int) - 1) = l.getLast? := by
  have h1 : 0 < l.length := List.length_pos.mpr hl
  simp only [goNth, if_neg (by omega : ¬ ((l.length : Int) - 1 < 0))]
  rw [List.getLast?_eq_getElem?]
  congr 1
  omega

/-- **C7.** Match navigation: with `n ≥ 1` matches and `wrapAround=true`,
`NextMatch` from index `n-1` yields the match at index 0 and `PreviousMatch`
from index 0 yields the match at index `n-1`; with `wrapAround=false`,
stepping past an end clamps `currentIndex` to that end and returns no match;
with zero matches both return no match immediately. -/
theorem c7_navigation (sm : SearchManager) :
    (sm.«matches».length ≥ 1 → sm.options.wrapAround = true →
      sm.currentIndex = (sm.«matches».length : Int) - 1 →
      NextMatch sm = some (sm.«matches».head?, { sm with currentIndex := 0 })) ∧
    (sm.«matches».length ≥ 1 → sm.options.wrapAround = true →
      sm.currentIndex = 0 →
      PreviousMatch sm = some (sm.«matches».getLast?,
        { sm with currentIndex := (sm.«matches».length : Int) - 1 })) ∧
    (sm.«matches».length ≥ 1 → sm.options.wrapAround = false →
      sm.currentIndex = (sm.«matches».length : Int) - 1 →
      NextMatch sm =
        some (none, { sm with currentIndex := (sm.«matches».length : Int) - 1 })) ∧
    (sm.«matches».length ≥ 1 → sm.options.wrapAround = false →
      sm.currentIndex = 0 →
      PreviousMatch sm = some (none, { sm with currentIndex := 0 })) ∧
    (sm.«matches» = [] →
      NextMatch sm = some (none, sm) ∧ PreviousMatch sm = some (none, sm)) := by
  refine ⟨?_, ?_, ?_, ?_, ?_⟩
  · intro h1 h2 h3
    have hlen0 : ¬ sm.«matches».length = 0 := by omega
    have hge : sm.currentIndex + 1 ≥ (sm.«matches».length : Int) := by omega
    rcases List.exists_cons_of_ne_nil
      (List.ne_nil_of_length_pos (by omega : 0 < sm.«matches».length)) with ⟨m, ms, hm⟩
    simp only [NextMatch, if_neg hlen0, if_pos hge, h2, if_true, goNth_zero]
    rw [hm]
    simp
  · intro h1 h2 h3
    have hlen0 : ¬ sm.«matches».length = 0 := by omega
    have hlt : sm.currentIndex - 1 < 0 := by omega
    have hnil : sm.«matches» ≠ [] := List.ne_nil_of_length_pos (by omega)
    simp only [PreviousMatch, if_neg hlen0, if_pos hlt, h2, if_true,
      goNth_last sm.«matches» hnil]
    cases hg : sm.«matches».getLast? with
    | none => exact absurd (List.getLast?_eq_none_iff.mp hg) hnil
    | some m => simp
  · intro h1 h2 h3
    have hlen0 : ¬ sm.«matches».length = 0 := by omega
    have hge : sm.currentIndex + 1 ≥ (sm.«matches».length : Int) := by omega
    simp only [NextMatch, if_neg hlen0, if_pos hge, h2, if_false, Bool.false_eq_true]
  · intro h1 h2 h3
    have hlen0 : ¬ sm.«matches».length = 0 := by omega
    have hlt : sm.currentIndex - 1 < 0 := by omega
    simp only [PreviousMatch, if_neg hlen0, if_pos hlt, h2, if_false,
      Bool.false_eq_true]
  · intro h
    constructor <;> simp [NextMatch, PreviousMatch, h]

theorem c7_navigation_witness :
    (NextMatch (smThree true 2) =
      some ((smThree true 2).«matches».head?, { smThree true 2 with currentIndex := 0 })) ∧
    (PreviousMatch (smThree true 0) =
      some ((smThree true 0).«matches».getLast?,
        { smThree true 0 with currentIndex := ((smThree true 0).«matches».length : Int) - 1 })) ∧
    (NextMatch (smThree false 2) =
      some (none, { smThree false 2 with
        currentIndex := ((smThree false 2).«matches».length : Int) - 1 })) ∧
    (PreviousMatch (smThree false 0) = some (none, { smThree false 0 with currentIndex := 0 })) ∧
    (NextMatch (Clear (smThree true 2)) = some (none, Clear (smThree true 2)) ∧
     PreviousMatch (Clear (smThree true 2)) = some (none, Clear (smThree true 2))) :=
  ⟨(c7_navigation (smThree true 2)).1 (by decide) (by decide) (by decide),
   (c7_navigation (smThree true 0)).2.1 (by decide) (by decide) (by decide),
   (c7_navigation (smThree false 2)).2.2.1 (by decide) (by decide) (by decide),
   (c7_navigation (smThree false 0)).2.2.2.1 (by decide) (by decide) (by decide),
   (c7_navigation (Clear (smThree true 2))).2.2.2.2 (by decide)⟩

/-- **C9.** After every normally-returning `Find`, `currentIndex` is `-1`; and
from any state with at least one match, `currentIndex = -1` and
`wrapAround=false`, `PreviousMatch()` returns no match yet sets
`currentIndex` to 0, after which `GetCurrentMatch()` returns the first
match. -/
theorem c9_prev_after_find :
    (∀ (re : RegexEngine) (sm : SearchManager) (text pat : GoStr) out,
      Find re sm text pat = some out → out.2.currentIndex = -1) ∧
    (∀ sm : SearchManager, sm.«matches» ≠ [] → sm.currentIndex = -1 →
      sm.options.wrapAround = false →
      PreviousMatch sm = some (none, { sm with currentIndex := 0 }) ∧
      GetCurrentMatch { sm with currentIndex := 0 } = sm.«matches».head?) := by
  constructor
  · intro re sm text pat out hf
    simp only [Find] at hf
    split at hf
    · simp only [Option.some.injEq] at hf
      rw [← hf]
    · split at hf
      · simp only [Option.some.injEq] at hf
        rw [← hf]
      · rcases Option.map_eq_some'.mp hf with ⟨ms, hms, heq⟩
        rw [← heq]
  · intro sm h1 h2 h3
    have hlen0 : ¬ sm.«matches».length = 0 := by
      simpa [List.length_eq_zero] using h1
    have hlt : sm.currentIndex - 1 < 0 := by omega
    constructor
    · simp only [PreviousMatch, if_neg hlen0, if_pos hlt, h3, if_false,
        Bool.false_eq_true]
    · have hl : ¬ ((0 : Int) ≥ (sm.«matches».length : Int)) := by
        have : 0 < sm.«matches».length := by omega
        omega
      simp only [GetCurrentMatch, goNth_zero]
      rw [if_neg]
      simp only [not_or]
      exact ⟨by omega, hl⟩

theorem c9_prev_after_find_witness :
    (({ currentPattern := [116],
        «matches» := [{ start := ⟨1, 1⟩, stop := ⟨1, 2⟩, text := [116] }],
        currentIndex := -1,
        options := { caseSensitive := false, wholeWord := false,
                     regularExpression := false, wrapAround := true },
        lastSearchText := [116] } : SearchManager).currentIndex = -1) ∧
    (PreviousMatch (smThree false (-1)) =
        some (none, { smThree false (-1) with currentIndex := 0 }) ∧
      GetCurrentMatch { smThree false (-1) with currentIndex := 0 } =
        (smThree false (-1)).«matches».head?) :=
  ⟨c9_prev_after_find.1 trivialRegex NewSearchManager [116] [116]
      (⟨[{ start := ⟨1, 1⟩, stop := ⟨1, 2⟩, text := [116] }],
        { currentPattern := [116],
          «matches» := [{ start := ⟨1, 1⟩, stop := ⟨1, 2⟩, text := [116] }],
          currentIndex := -1,
          options := { caseSensitive := false, wholeWord := false,
                       regularExpression := false, wrapAround := true },
          lastSearchText := [116] }⟩ :
        List GoMatch × SearchManager) (by decide),
   c9_prev_after_find.2 (smThree false (-1)) (by decide) (by decide) (by decide)⟩

theorem findLitLoop_pairwise (orig sline pat : GoStr) (ww : Bool) (ln : Nat) :
    ∀ (fuel startCol : Nat) (ms : List GoMatch),
      findLitLoop orig sline pat ww ln fuel startCol = .ok ms →
      (∀ m ∈ ms, (startCol : Int) < m.start.column) ∧
      ms.Pairwise (fun m1 m2 => m1.start.column < m2.start.column) ∧
      (∀ m ∈ ms, m.start.line = (ln : Int) + 1) := by
  intro fuel
  induction fuel with
  | zero => intro startCol ms h; simp [findLitLoop] at h
  | succ fuel ih =>
    intro startCol ms h
    rw [findLitLoop] at h
    split at h
    · exact absurd h (by simp)
    · split at h
      · next =>
        simp only [ScanRes.ok.injEq] at h
        subst h
        exact ⟨by simp, by simp, by simp⟩
      · next idx hidx =>
        split at h
        · have hrec := ih (startCol + idx + 1) ms h
          refine ⟨fun m hm => ?_, hrec.2.1, hrec.2.2⟩
          have := hrec.1 m hm
          push_cast at this
          omega
        · split at h
          · cases hrec' : findLitLoop orig sline pat ww ln fuel (startCol + idx + 1) with
            | panic => rw [hrec'] at h; exact absurd h (by simp)
            | fuelOut => rw [hrec'] at h; exact absurd h (by simp)
            | ok ms' =>
              rw [hrec'] at h
              simp only [ScanRes.ok.injEq] at h
              subst h
              have hrec := ih (startCol + idx + 1) ms' hrec'
              refine ⟨?_, ?_, ?_⟩
              · intro m hm
                rcases List.mem_cons.mp hm with hm | hm
                · subst hm
                  simp only []
                  omega
                · have := hrec.1 m hm
                  push_cast at this ⊢
                  omega
              · refine List.Pairwise.cons ?_ hrec.2.1
                intro m' hm'
                have := hrec.1 m' hm'
                simp only []
                push_cast at this ⊢
                omega
              · intro m hm
                rcases List.mem_cons.mp hm with hm | hm
                · subst hm; rfl
                · exact hrec.2.2 m hm
          · exact absurd h (by simp)

theorem flLines_pairwise (ww : Bool) (pat : GoStr) (lines : List GoStr) :
    ∀ (slines : List GoStr) (lineNum : Nat) (ms : List GoMatch),
      flLines ww pat lines slines lineNum = some ms →
      ms.Pairwise (fun m1 m2 => m1.start.line = m2.start.line →
        m1.start.column < m2.start.column) ∧
      (∀ m ∈ ms, (lineNum : Int) + 1 ≤ m.start.line) := by
  intro slines
  induction slines with
  | nil =>
    intro lineNum ms h
    simp only [flLines, Option.some.injEq] at h
    subst h
    simp
  | cons sline rest ih =>
    intro lineNum ms h
    rw [flLines] at h
    split at h
    · exact absurd h (by simp)
    · next orig horig =>
      split at h
      case _ ms0 hloop =>
        rcases Option.map_eq_some'.mp h with ⟨msRest, hRest, heq⟩
        subst heq
        have h0 := findLitLoop_pairwise orig sline pat ww lineNum _ 0 ms0 hloop
        have hr := ih (lineNum + 1) msRest hRest
        constructor
        · rw [List.pairwise_append]
          refine ⟨?_, hr.1, ?_⟩
          · refine List.Pairwise.imp ?_ h0.2.1
            intro m1 m2 hc hl
            exact hc
          intro a ha b hb
          intro hline
          exfalso
          have hal := h0.2.2 a ha
          have hbl := hr.2 b hb
          push_cast at hal hbl
          omega
        · intro m hm
          rcases List.mem_append.mp hm with hm | hm
          · have := h0.2.2 m hm
            push_cast at this ⊢
            omega
          · have := hr.2 m hm
            push_cast at this ⊢
            omega
      case _ r hne hloop => exact absurd h (by simp)

/-- **C2 (amended).** In literal mode the scan advances the cursor by 1 after
*every* candidate — rejected or accepted — so all occurrences, including
overlapping ones, are reported; what holds is that the match start columns on
any single line are strictly increasing (the spans need not be disjoint, see
`c2_counterexample`). -/
theorem c2_amended (o : SearchOptions) (text pat : GoStr) (ms : List GoMatch)
    (h : findLiteral o text pat = some ms) :
    ms.Pairwise (fun m1 m2 => m1.start.line = m2.start.line →
      m1.start.column < m2.start.column) := by
  simp only [findLiteral] at h
  exact (flLines_pairwise _ _ _ _ 0 ms h).1

theorem c2_amended_witness :
    List.Pairwise (fun m1 m2 => m1.start.line = m2.start.line →
        m1.start.column < m2.start.column)
      ([{ start := ⟨1, 1⟩, stop := ⟨1, 3⟩, text := [97, 97] },
        { start := ⟨1, 2⟩, stop := ⟨1, 4⟩, text := [97, 97] }] : List GoMatch) :=
  c2_amended { caseSensitive := false, wholeWord := false,
               regularExpression := false, wrapAround := true }
    (gs "aaa") (gs "aa") _ (by decide)

theorem histInv_record (h : History) (now : Nat) (op : Operation)
    (hi : histInv h) : histInv (RecordOperation h now op) := by
  unfold histInv RecordOperation at *
  split
  · exact hi
  · simp only [List.length_nil]
    split <;> split <;>
      · simp only [List.length_drop, List.length_append, List.length_cons,
          List.length_nil] at *
        push_cast at *
        omega

theorem histInv_undo (h : History) (hi : histInv h) : histInv (Undo h).2 := by
  unfold histInv Undo at *
  cases hg : h.undoStack.getLast? with
  | none => simpa using hi
  | some op =>
    have hne : h.undoStack ≠ [] := by
      intro he
      rw [he] at hg
      simp at hg
    have hlen : 0 < h.undoStack.length := List.length_pos.mpr hne
    simp only [List.length_dropLast, List.length_append, List.length_cons,
      List.length_nil]
    push_cast at *
    omega

theorem histInv_redo (h : History) (hi : histInv h) : histInv (Redo h).2 := by
  unfold histInv Redo at *
  cases hg : h.redoStack.getLast? with
  | none => simpa using hi
  | some op =>
    have hne : h.redoStack ≠ [] := by
      intro he
      rw [he] at hg
      simp at hg
    have hlen : 0 < h.redoStack.length := List.length_pos.mpr hne
    simp only [List.length_dropLast, List.length_append, List.length_cons,
      List.length_nil]
    push_cast at *
    omega

theorem histInv_reach (h : History) (hr : ReachableNoResize h) : histInv h := by
  induction hr with
  | init maxSize =>
    unfold histInv NewHistoryWithSize
    simp only [List.length_nil]
    split <;> omega
  | record now op _ ih => exact histInv_record _ now op ih
  | undo _ ih => exact histInv_undo _ ih
  | redo _ ih => exact histInv_redo _ ih
  | clear _ ih =>
    unfold histInv History.Clear at *
    simp only [List.length_nil]
    omega
  | setEnabled b _ ih => exact ih

/-- **C1 (amended).** `len(undoStack) ≤ maxSize` holds in every state
reachable from a fresh history by `RecordOperation`, `Undo`, `Redo`, `Clear`
and `SetEnabled`; `SetMaxSize`, however, trims only the undo stack, after
which a `Redo` can push the undo stack above the bound (see
`c1_counterexample`).  The concrete part of the claim holds: with
`maxSize = 3`, recording five single-character inserts `a`..`e` leaves the
undo stack equal to `[c, d, e]` in order. -/
theorem c1_amended :
    (∀ h : History, ReachableNoResize h →
      (h.undoStack.length : Int) ≤ h.maxSize) ∧
    fiveInserts.undoStack =
      [{ type := .insert, position := ⟨1, 1⟩, oldText := [], newText := [99],
         timestamp := 3 },
       { type := .insert, position := ⟨1, 1⟩, oldText := [], newText := [100],
         timestamp := 4 },
       { type := .insert, position := ⟨1, 1⟩, oldText := [], newText := [101],
         timestamp := 5 }] := by
  constructor
  · intro h hr
    have hi := histInv_reach h hr
    unfold histInv at hi
    omega
  · decide

theorem c1_amended_witness :
    (fiveInserts.undoStack.length : Int) ≤ fiveInserts.maxSize :=
  c1_amended.1 fiveInserts
    (.record 5 _ (.record 4 _ (.record 3 _ (.record 2 _
      (.record 1 _ (.init 3))))))

theorem trimSpaceIsEmpty_nil : trimSpaceIsEmpty [] = true := by decide

theorem ne_nil_of_not_blank (l : GoStr) (h : trimSpaceIsEmpty l = false) :
    l ≠ [] := by
  intro he
  subst he
  simp [trimSpaceIsEmpty_nil] at h

theorem removeIndentation_nil (im : IndentationManager) :
    removeIndentation im [] = ([], 0) := by
  simp [removeIndentation]

theorem removeIndentation_indent (im : IndentationManager) (l : GoStr)
    (hl : l ≠ []) :
    removeIndentation im (GetIndentString im ++ l) =
      (l, (GetIndentString im).length) := by
  have hne : GetIndentString im ++ l ≠ [] := by simp [hl]
  have hp : (GetIndentString im).isPrefixOf (GetIndentString im ++ l) = true := by
    rw [List.isPrefixOf_iff_prefix]
    exact List.prefix_append _ _
  unfold removeIndentation
  rw [if_neg hne, if_pos hp, List.drop_left]

theorem indentAux_length (ind : GoStr) (s e : Int) :
    ∀ (ls : List GoStr) (i : Int), (indentAux ind s e i ls).length = ls.length := by
  intro ls
  induction ls with
  | nil => intro i; rfl
  | cons l ls ih => intro i; simp [indentAux, ih]

theorem indentAux_no10 (ind : GoStr) (s e : Int)
    (hind : ∀ b' ∈ ind, b' ≠ 10) :
    ∀ (ls : List GoStr) (i : Int), (∀ l ∈ ls, ∀ b' ∈ l, b' ≠ 10) →
      ∀ l' ∈ indentAux ind s e i ls, ∀ b' ∈ l', b' ≠ 10 := by
  intro ls
  induction ls with
  | nil => intro i h l' hl'; simp [indentAux] at hl'
  | cons l ls ih =>
    intro i h l' hl'
    simp only [indentAux] at hl'
    rcases List.mem_cons.mp hl' with hl' | hl'
    · subst hl'
      split
      · intro b' hb'
        rcases List.mem_append.mp hb' with hb' | hb'
        · exact hind b' hb'
        · exact h l (by simp) b' hb'
      · exact h l (by simp)
    · exact ih (i + 1) (fun m hm => h m (by simp [hm])) l' hl'

theorem getIndentString_no10 (im : IndentationManager) :
    ∀ b' ∈ GetIndentString im, b' ≠ 10 := by
  unfold GetIndentString
  split
  · intro b' hb'
    rw [List.eq_of_mem_replicate hb']
    omega
  · intro b' hb'
    rcases List.mem_singleton.mp hb' with rfl
    omega

theorem unind_ind_aux (im : IndentationManager) (a b s e : Int)
    (ha : a ≤ s) (hb : e ≤ b) :
    ∀ (ls : List GoStr) (i : Int), blanksOK a b i ls = true →
      unindentAux im s e i (indentAux (GetIndentString im) s e i ls) = ls := by
  intro ls
  induction ls with
  | nil => intro i _; rfl
  | cons l ls ih =>
    intro i hok
    simp only [blanksOK, Bool.and_eq_true] at hok
    have hrest := ih (i + 1) hok.2
    simp only [indentAux, unindentAux]
    rw [hrest]
    by_cases hir : s ≤ i ∧ i ≤ e
    · by_cases hbl : trimSpaceIsEmpty l = false
      · rw [if_pos (show s ≤ i ∧ i ≤ e ∧ trimSpaceIsEmpty l = false from
          ⟨hir.1, hir.2, hbl⟩)]
        rw [if_pos hir, removeIndentation_indent im l (ne_nil_of_not_blank l hbl)]
      · have hbl' : trimSpaceIsEmpty l = true := by
          cases h' : trimSpaceIsEmpty l
          · exact absurd h' hbl
          · rfl
        have hl : l = [] := by
          have hcond : a ≤ i ∧ i ≤ b ∧ trimSpaceIsEmpty l = true :=
            ⟨le_trans ha hir.1, le_trans hir.2 hb, hbl'⟩
          have h1 := hok.1
          rw [if_pos hcond] at h1
          exact of_decide_eq_true h1
        subst hl
        rw [if_neg (fun hc : s ≤ i ∧ i ≤ e ∧ trimSpaceIsEmpty [] = false =>
          absurd hc.2.2 (by simp [hbl']))]
        rw [if_pos hir, removeIndentation_nil]
    · rw [if_neg (fun hc : s ≤ i ∧ i ≤ e ∧ trimSpaceIsEmpty l = false =>
        hir ⟨hc.1, hc.2.1⟩), if_neg hir]

/-- **C8 (amended).** `UnindentLines(IndentLines(C,a,b),a,b) = C` holds
whenever every whitespace-only line of `C` in the (clamped) range `[a,b]` is
empty; non-blank lines round-trip unconditionally (indent prepends one unit,
unindent strips exactly that prefix), so the claim's whole-unit condition is
not needed for them, but a non-empty whitespace-only line — even one indented
by exactly whole units, as the claim permits — is skipped by the indent and
still stripped by the unindent (see `c8_counterexample`). -/
theorem c8_amended (im : IndentationManager) (content : GoStr) (a b : Int)
    (hblanks : blanksOK a b 0 (splitNL content) = true) :
    UnindentLines im (IndentLines im content a b) a b = content := by
  have hpos : 0 < (splitNL content).length :=
    List.length_pos.mpr (splitNL_ne_nil content)
  have haS : a ≤ (if a < 0 then (0 : Int) else a) := by split <;> omega
  have heB : (if b ≥ ((splitNL content).length : Int)
      then ((splitNL content).length : Int) - 1 else b) ≤ b := by
    split <;> omega
  by_cases hse : (if a < 0 then (0 : Int) else a) >
      (if b ≥ ((splitNL content).length : Int)
        then ((splitNL content).length : Int) - 1 else b)
  · have h1 : IndentLines im content a b = content := by
      simp only [IndentLines]
      rw [if_pos hse]
    rw [h1]
    simp only [UnindentLines]
    rw [if_pos hse]
  · have h1 : IndentLines im content a b =
        joinNL (indentAux (GetIndentString im)
          (if a < 0 then (0 : Int) else a)
          (if b ≥ ((splitNL content).length : Int)
            then ((splitNL content).length : Int) - 1 else b) 0
          (splitNL content)) := by
      simp only [IndentLines]
      rw [if_neg hse]
    rw [h1]
    have hlen2 : (indentAux (GetIndentString im)
        (if a < 0 then (0 : Int) else a)
        (if b ≥ ((splitNL content).length : Int)
          then ((splitNL content).length : Int) - 1 else b) 0
        (splitNL content)).length = (splitNL content).length :=
      indentAux_length _ _ _ _ 0
    have hno10 : ∀ l ∈ indentAux (GetIndentString im)
        (if a < 0 then (0 : Int) else a)
        (if b ≥ ((splitNL content).length : Int)
          then ((splitNL content).length : Int) - 1 else b) 0
        (splitNL content), ∀ b' ∈ l, b' ≠ 10 :=
      indentAux_no10 _ _ _ (getIndentString_no10 im) _ 0 (mem_splitNL_no_nl content)
    have hne2 : indentAux (GetIndentString im)
        (if a < 0 then (0 : Int) else a)
        (if b ≥ ((splitNL content).length : Int)
          then ((splitNL content).length : Int) - 1 else b) 0
        (splitNL content) ≠ [] := by
      intro he
      rw [← List.length_eq_zero, hlen2] at he
      omega
    have hsplit := splitNL_joinNL _ hne2 hno10
    simp only [UnindentLines]
    rw [hsplit, hlen2, if_neg hse,
      unind_ind_aux im a b _ _ haS heB (splitNL content) 0 hblanks,
      joinNL_splitNL]

theorem c8_amended_witness :
    UnindentLines NewIndentationManager
      (IndentLines NewIndentationManager (gs "x\n    code") 0 1) 0 1 =
      gs "x\n    code" :=
  c8_amended NewIndentationManager (gs "x\n    code") 0 1 (by decide)

theorem goNth_bounds {α : Type} (l : List α) (i : Int) (x : α)
    (h : goNth l i = some x) : 0 ≤ i ∧ i < (l.length : Int) := by
  unfold goNth at h
  split at h
  · exact absurd h (by simp)
  · next hi =>
    have h2 : i.toNat < l.length := (List.getElem?_eq_some.mp h).1
    omega

theorem goNth_isSome {α : Type} (l : List α) (i : Int)
    (h1 : 0 ≤ i) (h2 : i < (l.length : Int)) : ∃ x, goNth l i = some x := by
  unfold goNth
  rw [if_neg (by omega)]
  have h3 : i.toNat < l.length := by omega
  exact ⟨l[i.toNat], List.getElem?_eq_some.mpr ⟨h3, rfl⟩⟩

theorem find_shape (re : RegexEngine) (sm : SearchManager) (text pat : GoStr)
    (out : List GoMatch × SearchManager) (h : Find re sm text pat = some out) :
    out.2.currentIndex = -1 ∧ out.2.«matches» = out.1 := by
  simp only [Find] at h
  split at h
  · simp only [Option.some.injEq] at h
    rw [← h]
    exact ⟨rfl, rfl⟩
  · split at h
    · simp only [Option.some.injEq] at h
      rw [← h]
      exact ⟨rfl, rfl⟩
    · rcases Option.map_eq_some'.mp h with ⟨ms, hms, heq⟩
      rw [← heq]
      exact ⟨rfl, rfl⟩

theorem setOptions_smInv (sm : SearchManager) (o : SearchOptions)
    (hi : SMInv sm) : SMInv (SetOptions sm o) := by
  unfold SMInv SetOptions at *
  split
  · exact Or.inl rfl
  · exact hi

theorem clear_smInv (sm : SearchManager) : SMInv (SearchManager.Clear sm) :=
  Or.inl rfl

theorem next_smInv (sm : SearchManager) (out : Option GoMatch × SearchManager)
    (h : NextMatch sm = some out) (hi : SMInv sm) : SMInv out.2 := by
  unfold NextMatch at h
  split at h
  · simp only [Option.some.injEq] at h
    rw [← h]
    exact hi
  · next hlen =>
    have hlen' : (sm.«matches».length : Int) ≠ 0 := by
      simp only [ne_eq, Nat.cast_eq_zero]
      exact hlen
    split at h
    · split at h
      · rcases Option.map_eq_some'.mp h with ⟨m, hm, heq⟩
        rw [← heq]
        right
        simp only []
        omega
      · simp only [Option.some.injEq] at h
        rw [← h]
        right
        simp only []
        omega
    · rcases Option.map_eq_some'.mp h with ⟨m, hm, heq⟩
      have hb := goNth_bounds _ _ _ hm
      rw [← heq]
      exact Or.inr hb

theorem prev_smInv (sm : SearchManager) (out : Option GoMatch × SearchManager)
    (h : PreviousMatch sm = some out) (hi : SMInv sm) : SMInv out.2 := by
  unfold PreviousMatch at h
  split at h
  · simp only [Option.some.injEq] at h
    rw [← h]
    exact hi
  · next hlen =>
    have hlen' : (sm.«matches».length : Int) ≠ 0 := by
      simp only [ne_eq, Nat.cast_eq_zero]
      exact hlen
    split at h
    · split at h
      · rcases Option.map_eq_some'.mp h with ⟨m, hm, heq⟩
        rw [← heq]
        right
        simp only []
        omega
      · simp only [Option.some.injEq] at h
        rw [← h]
        right
        simp only []
        omega
    · rcases Option.map_eq_some'.mp h with ⟨m, hm, heq⟩
      have hb := goNth_bounds _ _ _ hm
      rw [← heq]
      exact Or.inr hb

theorem setCurrent_smInv (sm : SearchManager) (i : Int) (hi : SMInv sm) :
    SMInv (SetCurrentMatch sm i).2 := by
  unfold SetCurrentMatch
  split
  · exact hi
  · next hrange =>
    push_neg at hrange
    split <;> exact Or.inr ⟨hrange.1, hrange.2⟩

theorem core_smInv (re : RegexEngine) (sm : SearchManager)
    (text pat repl : GoStr) (cm : GoMatch) (out : (GoStr × Int) × SearchManager)
    (h : replaceCurrentCore re sm text pat repl cm = some out) (hi : SMInv sm) :
    SMInv out.2 := by
  unfold replaceCurrentCore at h
  split at h
  · simp only [Option.some.injEq] at h
    rw [← h]
    exact hi
  · split at h
    · simp only [Option.some.injEq] at h
      rw [← h]
      exact hi
    · split at h
      · next pre post hpre hpost =>
        split at h
        · exact absurd h (by simp)
        · next ms' sm' hfind =>
          simp only [Option.some.injEq] at h
          rw [← h]
          exact Or.inl (find_shape re sm _ pat (ms', sm') hfind).1
      · exact absurd h (by simp)

theorem replaceCurrent_smInv (re : RegexEngine) (sm : SearchManager)
    (text pat repl : GoStr) (out : (GoStr × Int) × SearchManager)
    (h : replaceCurrent re sm text pat repl = some out) (hi : SMInv sm) :
    SMInv out.2 := by
  unfold replaceCurrent at h
  split at h
  · next cm hcm => exact core_smInv re sm text pat repl cm out h hi
  · split at h
    · exact absurd h (by simp)
    · next ms sm1 hfind =>
      split at h
      · simp only [Option.some.injEq] at h
        rw [← h]
        exact Or.inl (find_shape re sm text pat (ms, sm1) hfind).1
      · next hlen =>
        split at h
        · next cm hcm =>
          refine core_smInv re _ text pat repl cm out h ?_
          right
          simp only []
          have hms : sm1.«matches» = ms := (find_shape re sm text pat (ms, sm1) hfind).2
          rw [hms]
          have : ms.length ≠ 0 := hlen
          omega
        · exact absurd h (by simp)

theorem replaceAll_smInv (re : RegexEngine) (sm : SearchManager)
    (text pat repl : GoStr) (out : (GoStr × Int) × SearchManager)
    (h : replaceAll re sm text pat repl = some out) (_hi : SMInv sm) :
    SMInv out.2 := by
  unfold replaceAll at h
  split at h
  · exact absurd h (by simp)
  · next ms sm1 hfind =>
    have h1 : SMInv sm1 := Or.inl (find_shape re sm text pat (ms, sm1) hfind).1
    split at h
    · simp only [Option.some.injEq] at h
      rw [← h]
      exact h1
    · split at h
      · exact absurd h (by simp)
      · simp only [Option.some.injEq] at h
        rw [← h]
        exact h1

theorem replace_smInv (re : RegexEngine) (sm : SearchManager)
    (text pat repl : GoStr) (options : ReplaceOptions)
    (out : (GoStr × Int) × SearchManager)
    (h : Replace re sm text pat repl options = some out) (hi : SMInv sm) :
    SMInv out.2 := by
  unfold Replace at h
  split at h
  · exact replaceAll_smInv re _ text pat repl out h (setOptions_smInv sm _ hi)
  · exact replaceCurrent_smInv re _ text pat repl out h (setOptions_smInv sm _ hi)

theorem next_total (sm : SearchManager) (hi : SMInv sm) : NextMatch sm ≠ none := by
  unfold NextMatch
  split
  · simp
  · next hlen =>
    split
    · split
      · have : (0 : Int) < (sm.«matches».length : Int) := by
          have : sm.«matches».length ≠ 0 := hlen
          omega
        rcases goNth_isSome sm.«matches» 0 (by omega) this with ⟨x, hx⟩
        rw [hx]
        simp
      · simp
    · next hlt =>
      have hb : 0 ≤ sm.currentIndex + 1 ∧
          sm.currentIndex + 1 < (sm.«matches».length : Int) := by
        rcases hi with hi | hi
        · constructor
          · omega
          · omega
        · exact ⟨by omega, by omega⟩
      rcases goNth_isSome sm.«matches» _ hb.1 hb.2 with ⟨x, hx⟩
      rw [hx]
      simp

theorem prev_total (sm : SearchManager) (hi : SMInv sm) :
    PreviousMatch sm ≠ none := by
  unfold PreviousMatch
  split
  · simp
  · next hlen =>
    split
    · split
      · have h1 : (0 : Int) < (sm.«matches».length : Int) := by
          have : sm.«matches».length ≠ 0 := hlen
          omega
        rcases goNth_isSome sm.«matches» ((sm.«matches».length : Int) - 1)
          (by omega) (by omega) with ⟨x, hx⟩
        rw [hx]
        simp
      · simp
    · next hlt =>
      have hb : 0 ≤ sm.currentIndex - 1 ∧
          sm.currentIndex - 1 < (sm.«matches».length : Int) := by
        rcases hi with hi | hi
        · omega
        · exact ⟨by omega, by omega⟩
      rcases goNth_isSome sm.«matches» _ hb.1 hb.2 with ⟨x, hx⟩
      rw [hx]
      simp

/-- **C10.** In every search-manager state reachable by any sequence of
`Find`, `SetOptions`, `Clear`, `NextMatch`, `PreviousMatch`,
`SetCurrentMatch` and `Replace` calls, `currentIndex` is either `-1` or a
valid index into the match list, and consequently `NextMatch` and
`PreviousMatch` never index the match list out of bounds (they cannot panic;
`SetCurrentMatch` and `GetCurrentMatch` validate the index by construction).
-/
theorem c10_invariant (re : RegexEngine) (sm : SearchManager)
    (hr : ReachableSM re sm) :
    SMInv sm ∧ NextMatch sm ≠ none ∧ PreviousMatch sm ≠ none := by
  have hi : SMInv sm := by
    induction hr with
    | init => exact Or.inl rfl
    | find text pat _ hf ih => exact Or.inl (find_shape re _ text pat _ hf).1
    | setOptions o _ ih => exact setOptions_smInv _ o ih
    | clear _ ih => exact clear_smInv _
    | next _ hn ih => exact next_smInv _ _ hn ih
    | prev _ hp ih => exact prev_smInv _ _ hp ih
    | setCurrent index _ ih => exact setCurrent_smInv _ index ih
    | replace text pat repl options _ hrep ih =>
      exact replace_smInv re _ text pat repl options _ hrep ih
  exact ⟨hi, next_total sm hi, prev_total sm hi⟩

theorem c10_invariant_witness :
    SMInv NewSearchManager ∧ NextMatch NewSearchManager ≠ none ∧
      PreviousMatch NewSearchManager ≠ none :=
  c10_invariant trivialRegex NewSearchManager ReachableSM.init

theorem goIndex_le (s pat : GoStr) (idx : Nat) (h : goIndex s pat = some idx) :
    idx ≤ s.length := by
  unfold goIndex at h
  have hm := List.mem_of_find?_eq_some h
  have := List.mem_range.mp hm
  omega

theorem findLitLoop_no_fuelOut (orig sline pat : GoStr) (ww : Bool) (ln : Nat) :
    ∀ (fuel startCol : Nat), sline.length + 1 - startCol < fuel →
      findLitLoop orig sline pat ww ln fuel startCol ≠ .fuelOut := by
  intro fuel
  induction fuel with
  | zero => intro startCol hf; omega
  | succ fuel ih =>
    intro startCol hf
    rw [findLitLoop]
    split
    · simp
    · next hsc =>
      split
      · simp
      · next idx hidx =>
        have hdrop : (sline.drop startCol).length = sline.length - startCol :=
          List.length_drop _ _
        have hle : idx ≤ sline.length - startCol := by
          have := goIndex_le _ _ _ hidx
          omega
        split
        · exact ih (startCol + idx + 1) (by omega)
        · split
          · have hrec := ih (startCol + idx + 1) (by omega)
            cases hr : findLitLoop orig sline pat ww ln fuel (startCol + idx + 1) with
            | ok ms => simp
            | panic => simp
            | fuelOut => exact absurd hr hrec
          · simp
